import Mathlib

/-! Verification development for the typescript-migrate-imports codemods.

Text is modelled as `List Char`.  Variant A (the extension rewriter of
src/migrate-imports.ts) is embedded as a pure scanner that replays the
JavaScript regex `/(import|export)(?:[\s\S]*?)from\s+['"](?<path>\..+?)['"];?/g`
with its exec loop; the filesystem existence check `fs.access(resolved + '.ts')`
is abstracted into an oracle `exts : List Char → Bool` on the raw import path
(the processed file, hence its directory, is fixed during one processFile call).
Variant B (the type-only import migrator of src/type-only-import-migrator.ts
and its revisions) is embedded function by function below. -/

namespace MigrateImports

/-- ASCII model of the JavaScript `\s` class (and of `trim`'s whitespace). -/
def isWs (c : Char) : Bool :=
  c = ' ' || c = '\t' || c = '\n' || c = '\r' || c = '\x0b' || c = '\x0c'

/-- The characters the JavaScript `.` class does not match. -/
def isNl (c : Char) : Bool := c = '\n' || c = '\r'

/-- The quote class `['"]` of the source regexes. -/
def isQuote (c : Char) : Bool := c = '\x27' || c = '\x22'

/-- The JavaScript `\d` class. -/
def isDigitCh (c : Char) : Bool := '0' ≤ c && c ≤ '9'

/-- JavaScript String.prototype.trim (ASCII whitespace model). -/
def jsTrim (l : List Char) : List Char :=
  ((l.dropWhile isWs).reverse.dropWhile isWs).reverse

/-- JavaScript split('\n').  Total, never returns an empty list. -/
def splitNl : List Char → List (List Char)
  | [] => [[]]
  | c :: r =>
    if c = '\n' then [] :: splitNl r
    else
      match splitNl r with
      | [] => [[c]]
      | h :: t => (c :: h) :: t

/-- JavaScript Array.prototype.join('\n'). -/
def joinNl : List (List Char) → List Char
  | [] => []
  | [x] => x
  | x :: y :: t => x ++ '\n' :: joinNl (y :: t)

/-- JavaScript String.prototype.includes: pat occurs as a contiguous run. -/
def containsSub (pat : List Char) : List Char → Bool
  | [] => pat.isEmpty
  | c :: r => pat.isPrefixOf (c :: r) || containsSub pat r

/-- JavaScript String.prototype.replace with a string pattern: rewrites the
first occurrence of pat, and leaves the text unchanged when pat is absent. -/
def replaceFirst : List Char → List Char → List Char → List Char
  | [], pat, rep => if pat.isPrefixOf ([] : List Char) then rep else []
  | c :: r, pat, rep =>
    if pat.isPrefixOf (c :: r) then rep ++ (c :: r).drop pat.length
    else c :: replaceFirst r pat rep

/-- JavaScript String.prototype.substring(a, b) for a ≤ b. -/
def extractR (l : List Char) (a b : Nat) : List Char := (l.drop a).take (b - a)

/-! The extension-rewriter scanner.  `pathScan` is the lazy group `\..+?`
followed by the closing `['"]`: after the leading dot it takes the shortest
nonempty run of non-newline characters that is followed by a quote. -/

/-- Scan up to the first quote; fail at a newline or at the end. -/
def pathScanGo : List Char → Option (List Char × List Char)
  | [] => none
  | c :: r =>
    if isQuote c then some ([], c :: r)
    else if isNl c then none
    else
      match pathScanGo r with
      | some (x, rest) => some (c :: x, rest)
      | none => none

/-- The `.+?` after the leading dot: one unconditional non-newline character,
then the shortest continuation ending right before a quote. -/
def pathScan : List Char → Option (List Char × List Char)
  | [] => none
  | c :: r =>
    if isNl c then none
    else
      match pathScanGo r with
      | some (x, rest) => some (c :: x, rest)
      | none => none

/-- The optional `;?` at the end of the rewriter regex: 1 consumed character
when the text goes on with a semicolon. -/
def semiLen : List Char → Nat
  | ';' :: _ => 1
  | _ => 0

/-- Attempt of the regex tail `from\s+['"](\..+?)['"];?` at the head of l; on
success, the consumed length and the path group (with its leading dot). -/
def matchTail (l : List Char) : Option (Nat × List Char) :=
  match l with
  | 'f' :: 'r' :: 'o' :: 'm' :: l1 =>
    let ws := l1.takeWhile isWs
    if ws.isEmpty then none
    else
      match l1.dropWhile isWs with
      | q :: '.' :: l4 =>
        if isQuote q then
          match pathScan l4 with
          | some (x, rest) =>
            match rest with
            | _ :: after => some (4 + ws.length + 2 + x.length + 1 + semiLen after, '.' :: x)
            | [] => none
          | none => none
        else none
      | _ => none
  | _ => none

/-- The lazy gap `[\s\S]*?`: least offset at which matchTail succeeds. -/
def findTail : List Char → Option (Nat × Nat × List Char)
  | [] => none
  | c :: r =>
    match matchTail (c :: r) with
    | some (len, p) => some (0, len, p)
    | none =>
      match findTail r with
      | some (k, len, p) => some (k + 1, len, p)
      | none => none

/-- Leftmost match of the whole regex in l: (start, length, path group). -/
def findMatch : List Char → Option (Nat × Nat × List Char)
  | [] => none
  | c :: r =>
    if ("import").toList.isPrefixOf (c :: r) || ("export").toList.isPrefixOf (c :: r) then
      match findTail ((c :: r).drop 6) with
      | some (k, tlen, p) => some (0, 6 + k + tlen, p)
      | none =>
        match findMatch r with
        | some (ms, mlen, p) => some (ms + 1, mlen, p)
        | none => none
    else
      match findMatch r with
      | some (ms, mlen, p) => some (ms + 1, mlen, p)
      | none => none

/-- The rewrite condition of processFile: the path has no recognized source
extension and the sibling file `<resolved>.ts` exists per the oracle. -/
def trigger (exts : List Char → Bool) (p : List Char) : Bool :=
  !((".ts").toList.isSuffixOf p) && !((".js").toList.isSuffixOf p) && exts p

/-- The exec loop of processFile.  pos is the regex lastIndex, lastIndex the
copy cursor of newContent, acc the newContent built so far, modified the
fileContentModified flag.  Fuel only bounds the loop; every iteration advances
pos by the positive match length, so content.length + 1 is always enough. -/
def processGo (exts : List Char → Bool) (content : List Char) :
    Nat → Nat → Nat → List Char → Bool → Bool × List Char
  | 0, _, lastIndex, acc, modified => (modified, acc ++ content.drop lastIndex)
  | fuel + 1, pos, lastIndex, acc, modified =>
    match findMatch (content.drop pos) with
    | none => (modified, acc ++ content.drop lastIndex)
    | some (ms, mlen, p) =>
      if trigger exts p then
        processGo exts content fuel (pos + ms + mlen) (pos + ms + mlen)
          (acc ++ extractR content lastIndex (pos + ms) ++
            replaceFirst (extractR content (pos + ms) (pos + ms + mlen)) p
              (p ++ (".ts").toList))
          true
      else
        processGo exts content fuel (pos + ms + mlen) lastIndex acc modified

/-- Pure model of processFile (src/migrate-imports.ts, lines 30-76): some
written content when fileContentModified ended true, none (no write) else. -/
def processFile (exts : List Char → Bool) (content : List Char) : Option (List Char) :=
  let r := processGo exts content (content.length + 1) 0 0 [] false
  if r.fst then some r.snd else none

/-- The matches the exec loop visits, with absolute start positions. -/
def matchesGo (content : List Char) : Nat → Nat → List (Nat × Nat × List Char)
  | 0, _ => []
  | fuel + 1, pos =>
    match findMatch (content.drop pos) with
    | none => []
    | some (ms, mlen, p) => (pos + ms, mlen, p) :: matchesGo content fuel (pos + ms + mlen)

/-- All matches of one processFile pass. -/
def matchList (content : List Char) : List (Nat × Nat × List Char) :=
  matchesGo content (content.length + 1) 0

/-- What one match region becomes in the output: rewritten when triggered,
byte-for-byte itself otherwise. -/
def pieceOf (exts : List Char → Bool) (content : List Char)
    (mIdx mlen : Nat) (p : List Char) : List Char :=
  if trigger exts p then
    replaceFirst (extractR content mIdx (mIdx + mlen)) p (p ++ (".ts").toList)
  else extractR content mIdx (mIdx + mlen)

/-- The output of the pass as gap/piece concatenation. -/
def piecesGo (exts : List Char → Bool) (content : List Char) : Nat → Nat → List Char
  | 0, pos => content.drop pos
  | fuel + 1, pos =>
    match findMatch (content.drop pos) with
    | none => content.drop pos
    | some (ms, mlen, p) =>
      extractR content pos (pos + ms) ++ pieceOf exts content (pos + ms) mlen p ++
        piecesGo exts content fuel (pos + ms + mlen)

/-- The file content after the pass (the written content, or the original
when nothing was written). -/
def contentAfter (exts : List Char → Bool) (content : List Char) : List Char :=
  (processFile exts content).getD content

/-! Variant B: the type-only import migrator. -/

/-- Value of parseInt on an all-digit string. -/
def digitsToNat (ds : List Char) : Nat := ds.foldl (fun a c => a * 10 + (c.toNat - 48)) 0

/-- Consumption of `:(\d+)` of the diagnostic regex: the parsed number and
the rest.  The digit run is greedy; the following literal is not a digit, so
no backtracking is possible. -/
def expectColonDigits (l : List Char) : Option (Nat × List Char) :=
  match l with
  | ':' :: r =>
    let ds := r.takeWhile isDigitCh
    if ds.isEmpty then none else some (digitsToNat ds, r.dropWhile isDigitCh)
  | _ => none

/-- Consumption of `\s+`: greedy, at least one character; the literals that
follow in the pattern are never whitespace, so no backtracking is possible. -/
def expectWs (l : List Char) : Option (List Char) :=
  if (l.takeWhile isWs).isEmpty then none else some (l.dropWhile isWs)

/-- Consumption of a literal. -/
def expectLit : List Char → List Char → Option (List Char)
  | [], l => some l
  | _ :: _, [] => none
  | c :: cs, x :: xs => if x = c then expectLit cs xs else none

/-- Consumption of `'([^']+)'`: the greedy nonempty non-quote run is closed
by the first quote, deterministically. -/
def expectName (l : List Char) : Option (List Char × List Char) :=
  match l with
  | '\x27' :: r =>
    let nm := r.takeWhile (fun c => c ≠ '\x27')
    if nm.isEmpty then none
    else
      match r.dropWhile (fun c => c ≠ '\x27') with
      | '\x27' :: r2 => some (nm, r2)
      | _ => none
  | _ => none

/-- Attempt of the tail `:(\d+):(\d+)\s+-\s+error\s+TS1484:\s+'([^']+)'\s+is\s+a\s+type`
of the diagnostic regex at the head of l: (line, column, type name). -/
def matchDiagTail (l : List Char) : Option (Nat × Nat × List Char) :=
  match expectColonDigits l with
  | none => none
  | some (ln, l1) =>
    match expectColonDigits l1 with
    | none => none
    | some (col, l2) =>
      match expectWs l2 with
      | none => none
      | some l3 =>
        match expectLit (("-").toList) l3 with
        | none => none
        | some l4 =>
          match expectWs l4 with
          | none => none
          | some l5 =>
            match expectLit (("error").toList) l5 with
            | none => none
            | some l6 =>
              match expectWs l6 with
              | none => none
              | some l7 =>
                match expectLit (("TS1484:").toList) l7 with
                | none => none
                | some l8 =>
                  match expectWs l8 with
                  | none => none
                  | some l9 =>
                    match expectName l9 with
                    | none => none
                    | some (nm, l10) =>
                      match expectWs l10 with
                      | none => none
                      | some l11 =>
                        match expectLit (("is").toList) l11 with
                        | none => none
                        | some l12 =>
                          match expectWs l12 with
                          | none => none
                          | some l13 =>
                            match expectLit (("a").toList) l13 with
                            | none => none
                            | some l14 =>
                              match expectWs l14 with
                              | none => none
                              | some l15 =>
                                match expectLit (("type").toList) l15 with
                                | none => none
                                | some _ => some (ln, col, nm)

/-- Greedy `^(.+)` with backtracking: the longest prefix of non-newline
characters whose remainder matches the diagnostic tail. -/
def tryDiagFrom (l : List Char) : Nat → Option (List Char × Nat × Nat × List Char)
  | 0 => none
  | i + 1 =>
    match
      (if (l.take (i + 1)).all (fun c => !isNl c) then matchDiagTail (l.drop (i + 1)) else none)
    with
    | some (ln, col, nm) => some (l.take (i + 1), ln, col, nm)
    | none => tryDiagFrom l i

/-- Match of the whole diagnostic line regex
`^(.+):(\d+):(\d+)\s+-\s+error\s+TS1484:\s+'([^']+)'\s+is\s+a\s+type`. -/
def matchErrorLine (l : List Char) : Option (List Char × Nat × Nat × List Char) :=
  tryDiagFrom l l.length

/-- The ImportError record of the migrator (first revision field names). -/
structure ImportError where
  filePath : List Char
  line : Nat
  column : Nat
  typeName : List Char
  errorMessage : List Char
  deriving DecidableEq, Repr

/-- The record built from one matched diagnostic line. -/
def mkImportError (t : List Char) (r : List Char × Nat × Nat × List Char) : ImportError :=
  { filePath := jsTrim r.1, line := r.2.1, column := r.2.2.1,
    typeName := jsTrim r.2.2.2, errorMessage := t }

/-- One iteration of the parseTscOutput loop: push one ImportError when the
trimmed line matches, keep the accumulator otherwise. -/
def pushDiagLine (errors : List ImportError) (line : List Char) : List ImportError :=
  match matchErrorLine (jsTrim line) with
  | some r => errors ++ [mkImportError (jsTrim line) r]
  | none => errors

/-- parseTscOutput (src/type-only-import-migrator.ts lines 28-53): split on
'\n', trim each line, push one ImportError per matching line. -/
def parseTscOutput (tscOutput : List Char) : List ImportError :=
  (splitNl tscOutput).foldl pushDiagLine []

/-- One bound name of a parsed import statement. -/
structure ImportName where
  name : List Char
  isType : Bool
  deriving DecidableEq, Repr

/-- The ImportStatement record of the first revision and of part_003. -/
structure ImportStmt where
  line : Nat
  fullStatement : List Char
  module : List Char
  imports : List ImportName
  deriving DecidableEq, Repr

/-- JavaScript split(','). -/
def splitComma : List Char → List (List Char)
  | [] => [[]]
  | c :: r =>
    if c = ',' then [] :: splitComma r
    else
      match splitComma r with
      | [] => [[c]]
      | h :: t => (c :: h) :: t

/-- Attempt of `from\s+['"]([^'"]+)['"]` at the head of l. -/
def tryModuleAt (l : List Char) : Option (List Char) :=
  match l with
  | 'f' :: 'r' :: 'o' :: 'm' :: r =>
    if (r.takeWhile isWs).isEmpty then none
    else
      match r.dropWhile isWs with
      | q :: r2 =>
        if isQuote q then
          let nm := r2.takeWhile (fun c => !isQuote c)
          if nm.isEmpty then none
          else
            match r2.dropWhile (fun c => !isQuote c) with
            | _ :: _ => some nm
            | [] => none
        else none
      | [] => none
  | _ => none

/-- First-occurrence search of the module regex. -/
def findModule : List Char → Option (List Char)
  | [] => none
  | c :: r =>
    match tryModuleAt (c :: r) with
    | some m => some m
    | none => findModule r

/-- Attempt of `import\s*\{([^}]+)\}` at the head of l. -/
def tryImportsAt (l : List Char) : Option (List Char) :=
  match l with
  | 'i' :: 'm' :: 'p' :: 'o' :: 'r' :: 't' :: r =>
    match r.dropWhile isWs with
    | '\x7b' :: r2 =>
      let inner := r2.takeWhile (fun c => c ≠ '\x7d')
      if inner.isEmpty then none
      else
        match r2.dropWhile (fun c => c ≠ '\x7d') with
        | _ :: _ => some inner
        | [] => none
    | _ => none
  | _ => none

/-- First-occurrence search of the braces regex. -/
def findImports : List Char → Option (List Char)
  | [] => none
  | c :: r =>
    match tryImportsAt (c :: r) with
    | some m => some m
    | none => findImports r

/-- The multiline accumulation loop of parseImportStatements: append trimmed
following lines while the statement lacks both ';' and ' from '. -/
def accumulate (full : List Char) : List (List Char) → List Char
  | [] => full
  | nxt :: r =>
    if containsSub ([';']) full || containsSub ((" from ").toList) full then full
    else accumulate (full ++ ' ' :: jsTrim nxt) r

/-- The scan loop of parseImportStatements; i is the 0-based index of cur. -/
def parseGo : Nat → List (List Char) → List ImportStmt
  | _, [] => []
  | i, cur :: rest =>
    let line := jsTrim cur
    if ("import ").toList.isPrefixOf line && !(("import type ").toList.isPrefixOf line) then
      let fullStatement := accumulate line rest
      match findModule fullStatement with
      | none => parseGo (i + 1) rest
      | some md =>
        match findImports fullStatement with
        | none => parseGo (i + 1) rest
        | some inner =>
          { line := i + 1, fullStatement := fullStatement, module := md,
            imports := (((splitComma inner).map jsTrim).filter (fun s => !s.isEmpty)).map
              (fun n => { name := n, isType := false }) } :: parseGo (i + 1) rest
    else parseGo (i + 1) rest

/-- parseImportStatements (src/type-only-import-migrator.ts lines 66-115,
src/unnamed/part_003 lines 84-133): statements recorded under the 1-based
index of their first line. -/
def parseImportStatements (fileContent : List Char) : List ImportStmt :=
  parseGo 0 (splitNl fileContent)

/-- The value-import half of updateImportStatement: names not flagged. -/
def regularImportsOf (stmt : ImportStmt) (typeOnlyImports : List (List Char)) : List (List Char) :=
  (stmt.imports.filter (fun imp => !(typeOnlyImports.contains imp.name))).map ImportName.name

/-- The type-import half of updateImportStatement: the flagged names. -/
def typeImportsOf (stmt : ImportStmt) (typeOnlyImports : List (List Char)) : List (List Char) :=
  (stmt.imports.filter (fun imp => typeOnlyImports.contains imp.name)).map ImportName.name

/-- Comma-space joining of a brace list. -/
def commaJoin (names : List (List Char)) : List Char :=
  List.intercalate ((", ").toList) names

/-- Rendering of one value-import statement line (no indent in this variant). -/
def valueLineOf (names : List (List Char)) (md : List Char) : List Char :=
  ("import \x7b ").toList ++ commaJoin names ++ (" \x7d from \x22").toList ++ md ++ ("\x22;").toList

/-- Rendering of one type-only-import statement line. -/
def typeLineOf (names : List (List Char)) (md : List Char) : List Char :=
  ("import type \x7b ").toList ++ commaJoin names ++ (" \x7d from \x22").toList ++
    md ++ ("\x22;").toList

/-- updateImportStatement (src/type-only-import-migrator.ts lines 120-145,
src/unnamed/part_003 lines 138-163): value-import statement when any name is
unflagged, then type-only-import statement when any name is flagged. -/
def updateImportStatement (stmt : ImportStmt) (typeOnlyImports : List (List Char)) : List Char :=
  joinNl
    ((if (regularImportsOf stmt typeOnlyImports).isEmpty then []
      else [valueLineOf (regularImportsOf stmt typeOnlyImports) stmt.module]) ++
     (if (typeImportsOf stmt typeOnlyImports).isEmpty then []
      else [typeLineOf (typeImportsOf stmt typeOnlyImports) stmt.module]))

/-- The endLine scan of fixImportsInFile: advance while strictly below the
last line index and the current original line lacks a semicolon. -/
def findEndGo (lines : List (List Char)) : Nat → Nat → Nat
  | 0, e => e
  | fuel + 1, e =>
    if e < lines.length - 1 && !containsSub ([';']) (lines.getD e []) then
      findEndGo lines fuel (e + 1)
    else e

/-- The end line (0-based) of the span fixImportsInFile replaces. -/
def findEnd (lines : List (List Char)) (startLine : Nat) : Nat :=
  findEndGo lines lines.length startLine

/-- JavaScript Array.prototype.splice(start, deleteCount, ...items) on a
copy: negative starts count from the end clamped at 0, large starts clamp at
the length, deleteCount clamps at what remains. -/
def jsSplice {α : Type} (l : List α) (start : Int) (deleteCount : Nat) (items : List α) :
    List α :=
  let s : Nat := if start < 0 then ((l.length : Int) + start).toNat else min start.toNat l.length
  l.take s ++ items ++ (l.drop s).drop deleteCount

/-- The per-line grouping map of fixImportsInFile read back at key n: the
type names this file's errors record for line n, in input order. -/
def errorsByLine (fileErrors : List ImportError) (n : Nat) : List (List Char) :=
  (fileErrors.filter (fun e => e.line == n)).map ImportError.typeName

/-- One iteration of the replacement loop of fixImportsInFile; the state is
(updatedLines, lineOffset).  The end of the span is found on the original
lines, the splice lands at the recorded start plus the running offset. -/
def fixStep (lines : List (List Char)) (fileErrors : List ImportError)
    (st : List (List Char) × Int) (stmt : ImportStmt) : List (List Char) × Int :=
  let typeOnlyImports := errorsByLine fileErrors stmt.line
  if typeOnlyImports.isEmpty then st
  else
    let startLine := stmt.line - 1
    let endLine := findEnd lines startLine
    let newLines := splitNl (updateImportStatement stmt typeOnlyImports)
    let originalLineCount := endLine - startLine + 1
    (jsSplice st.1 ((startLine : Int) + st.2) originalLineCount newLines,
     st.2 + (newLines.length : Int) - (originalLineCount : Int))

/-- fixImportsInFile (src/type-only-import-migrator.ts lines 150-216,
src/unnamed/part_003 lines 168-240) as the pure transformation of one
successfully read file: none models the early return without a write (no
errors recorded for this file), some the unconditional write at the end. -/
def fixImportsInFile (errors : List ImportError) (filePath : List Char)
    (fileContent : List Char) : Option (List Char) :=
  let fileErrors := errors.filter (fun e => e.filePath == filePath)
  if fileErrors.isEmpty then none
  else
    let lines := splitNl fileContent
    let importStatements := parseImportStatements fileContent
    let st := importStatements.foldl (fixStep lines fileErrors) (lines, (0 : Int))
    some (joinNl st.1)

/-- The ImportStatement record of the second revision (string import list
plus the already-type-only flag). -/
structure ImportStatement2 where
  line : Nat
  fullImport : List Char
  module : List Char
  imports : List (List Char)
  hasTypeOnly : Bool
  deriving DecidableEq, Repr

/-- The `replace(/^type\s+/, '')` then trim of generateNewImportStatement. -/
def cleanOf (imp : List Char) : List Char :=
  jsTrim
    (match imp with
     | 't' :: 'y' :: 'p' :: 'e' :: r =>
       if (r.takeWhile isWs).isEmpty then imp else r.dropWhile isWs
     | _ => imp)

/-- The partition loop of generateNewImportStatement: value imports keep
their original spelling. -/
def valueImportsOf2 (imports : List (List Char)) (typeIdentifiers : List (List Char)) :
    List (List Char) :=
  imports.filter (fun imp => !(typeIdentifiers.contains (cleanOf imp)))

/-- The flagged half, stored cleaned. -/
def typeImportsOf2 (imports : List (List Char)) (typeIdentifiers : List (List Char)) :
    List (List Char) :=
  (imports.filter (fun imp => typeIdentifiers.contains (cleanOf imp))).map cleanOf

/-- The emitted statement lines of generateNewImportStatement
(src/type-only-import-migrator.ts lines 416-453) before the '\n' join; an
already-type-only statement is passed through as its single original line. -/
def genLines (s : ImportStatement2) (typeIdentifiers : List (List Char))
    (indent : List Char) : List (List Char) :=
  if s.hasTypeOnly then [s.fullImport]
  else
    (if (valueImportsOf2 s.imports typeIdentifiers).isEmpty then []
     else [indent ++ valueLineOf (valueImportsOf2 s.imports typeIdentifiers) s.module]) ++
    (if (typeImportsOf2 s.imports typeIdentifiers).isEmpty then []
     else [indent ++ typeLineOf (typeImportsOf2 s.imports typeIdentifiers) s.module])

/-- generateNewImportStatement itself: the lines joined with '\n'. -/
def generateNewImportStatement (s : ImportStatement2) (typeIdentifiers : List (List Char))
    (indent : List Char) : List Char :=
  joinNl (genLines s typeIdentifiers indent)

/-- The edit one flagged statement causes: 0-based start line, 0-based end
line (inclusive), replacement lines. -/
def toEdit (lines : List (List Char)) (fileErrors : List ImportError)
    (stmt : ImportStmt) : Option (Nat × Nat × List (List Char)) :=
  let typeOnlyImports := errorsByLine fileErrors stmt.line
  if typeOnlyImports.isEmpty then none
  else
    some (stmt.line - 1, findEnd lines (stmt.line - 1),
      splitNl (updateImportStatement stmt typeOnlyImports))

/-- All edits of one fixImportsInFile pass, in statement order. -/
def editsOf (errors : List ImportError) (filePath : List Char)
    (fileContent : List Char) : List (Nat × Nat × List (List Char)) :=
  (parseImportStatements fileContent).filterMap
    (toEdit (splitNl fileContent) (errors.filter (fun e => e.filePath == filePath)))

/-- Simultaneous application of line-span edits in original coordinates:
replace original lines a..b (0-based, inclusive) by r; c is the original
index of the head of lines. -/
def applyEditsFrom (c : Nat) (lines : List (List Char)) :
    List (Nat × Nat × List (List Char)) → List (List Char)
  | [] => lines
  | (a, b, r) :: rest =>
    lines.take (a - c) ++ r ++ applyEditsFrom (b + 1) (lines.drop (b + 1 - c)) rest

/-- Sortedness and disjointness of edits over the window of original lines
c..hi-1. -/
def chainEdits (c hi : Nat) : List (Nat × Nat × List (List Char)) → Prop
  | [] => True
  | (a, b, _) :: rest => c ≤ a ∧ a ≤ b ∧ b < hi ∧ chainEdits (b + 1) hi rest

/-- chainEdits is decidable, so witnesses can evaluate it. -/
def chainEditsDecidable : (E : List (Nat × Nat × List (List Char))) → (c hi : Nat) →
    Decidable (chainEdits c hi E)
  | [], _, _ => isTrue trivial
  | (a, b, _) :: rest, c, hi =>
    have _ih : Decidable (chainEdits (b + 1) hi rest) := chainEditsDecidable rest (b + 1) hi
    inferInstanceAs (Decidable (c ≤ a ∧ a ≤ b ∧ b < hi ∧ chainEdits (b + 1) hi rest))

instance (c hi : Nat) (E : List (Nat × Nat × List (List Char))) :
    Decidable (chainEdits c hi E) :=
  chainEditsDecidable E c hi

/-- The replacement loop of fixImportsInFile restricted to its flagged
statements, as a fold over their edits. -/
def spliceFold : List (List Char) × Int → List (Nat × Nat × List (List Char)) →
    List (List Char) × Int
  | st, [] => st
  | (u, t), (a, b, r) :: rest =>
    spliceFold
      (jsSplice u ((a : Int) + t) (b - a + 1) r,
       t + (r.length : Int) - ((b - a + 1 : Nat) : Int))
      rest

/-! Basic lemmas about the text helpers. -/

/-- Splitting a take at an intermediate length. -/
theorem listTakeAdd {α : Type} (m n : Nat) : ∀ (l : List α),
    l.take (m + n) = l.take m ++ (l.drop m).take n := by
  induction m with
  | zero => intro l; simp
  | succ m ih =>
    intro l
    cases l with
    | nil => simp
    | cons c r =>
      have h : m + 1 + n = (m + n) + 1 := by omega
      rw [h]
      simp [List.take_succ_cons, ih r]

/-- The empty window. -/
theorem extractR_self (l : List Char) (a : Nat) : extractR l a a = [] := by
  simp [extractR]

/-- Splitting a window at an intermediate position. -/
theorem extractR_split (l : List Char) {a b c : Nat} (hab : a ≤ b) (hbc : b ≤ c) :
    extractR l a c = extractR l a b ++ extractR l b c := by
  unfold extractR
  have h1 : c - a = (b - a) + (c - b) := by omega
  rw [h1, listTakeAdd]
  congr 2
  rw [List.drop_drop]
  congr 1
  omega

/-- A drop as a window plus a later drop. -/
theorem drop_eq_extractR_append (l : List Char) {a b : Nat} (hab : a ≤ b) :
    l.drop a = extractR l a b ++ l.drop b := by
  unfold extractR
  conv_lhs => rw [← List.take_append_drop (b - a) (l.drop a)]
  congr 1
  rw [List.drop_drop]
  congr 1
  omega

/-- splitNl is never empty. -/
theorem splitNl_ne_nil (l : List Char) : splitNl l ≠ [] := by
  induction l with
  | nil => simp [splitNl]
  | cons c r _ =>
    simp only [splitNl]
    by_cases h : c = '\n'
    · simp [h]
    · simp only [if_neg h]
      cases hs : splitNl r <;> simp

/-- Splitting on newlines and joining them back is the identity. -/
theorem joinNl_splitNl (l : List Char) : joinNl (splitNl l) = l := by
  induction l with
  | nil => rfl
  | cons c r ih =>
    simp only [splitNl]
    by_cases h : c = '\n'
    · subst h
      rw [if_pos rfl]
      cases hs : splitNl r with
      | nil => exact absurd hs (splitNl_ne_nil r)
      | cons h0 t =>
        rw [hs] at ih
        simpa [joinNl] using ih
    · rw [if_neg h]
      cases hs : splitNl r with
      | nil => exact absurd hs (splitNl_ne_nil r)
      | cons h0 t =>
        rw [hs] at ih
        cases t with
        | nil => simpa [joinNl] using congrArg (c :: ·) ih
        | cons y t' =>
          simp only [joinNl] at ih ⊢
          simp [← ih]

/-- A list that decomposes around pat contains pat. -/
theorem containsSub_of_decomp : ∀ (A : List Char) {l pat B : List Char},
    l = A ++ pat ++ B → containsSub pat l = true := by
  intro A
  induction A with
  | nil =>
    intro l pat B h
    simp only [List.nil_append] at h
    have hpre : pat.isPrefixOf l = true := by
      rw [List.isPrefixOf_iff_prefix, h]
      exact List.prefix_append pat B
    cases l with
    | nil =>
      have : pat = [] := by
        cases pat with
        | nil => rfl
        | cons p ps => simp at h
      simp [containsSub, this]
    | cons c r => simp [containsSub, hpre]
  | cons a A ih =>
    intro l pat B h
    subst h
    simp only [List.cons_append, containsSub, Bool.or_eq_true]
    right
    exact ih rfl

/-- A suffix that starts with pat yields a decomposition of the whole list. -/
theorem decomp_of_suffix_starts {pat w l : List Char} (hw : w <:+ l)
    (h : ∃ B, w = pat ++ B) : ∃ A B, l = A ++ pat ++ B := by
  obtain ⟨A, hA⟩ := hw
  obtain ⟨B, hB⟩ := h
  exact ⟨A, B, by rw [← hA, hB, List.append_assoc]⟩

/-- The parseTscOutput loop pushes exactly the matched lines, in order. -/
theorem foldl_pushDiagLine : ∀ (L : List (List Char)) (acc : List ImportError),
    L.foldl pushDiagLine acc
      = acc ++ L.filterMap
          (fun line => (matchErrorLine (jsTrim line)).map (mkImportError (jsTrim line))) := by
  intro L
  induction L with
  | nil => intro acc; simp
  | cons x L ih =>
    intro acc
    rw [List.foldl_cons, List.filterMap_cons]
    cases hg : matchErrorLine (jsTrim x) with
    | none => simp [pushDiagLine, hg, ih]
    | some r => simp [pushDiagLine, hg, ih]

/-! Structural facts about the extension-rewriter scanner, used to show that
every match region actually contains its path group. -/

/-- pathScanGo consumes an initial segment and stops at its rest. -/
theorem pathScanGo_spec : ∀ {l x rest : List Char}, pathScanGo l = some (x, rest) →
    l = x ++ rest ∧ rest ≠ [] := by
  intro l
  induction l with
  | nil => intro x rest h; simp [pathScanGo] at h
  | cons c r ih =>
    intro x rest h
    simp only [pathScanGo] at h
    by_cases hq : isQuote c
    · rw [if_pos hq] at h
      simp only [Option.some.injEq, Prod.mk.injEq] at h
      obtain ⟨hx, hr⟩ := h
      subst hx; subst hr
      exact ⟨rfl, by simp⟩
    · rw [if_neg hq] at h
      by_cases hn : isNl c
      · simp [hn] at h
      · rw [if_neg hn] at h
        cases hps : pathScanGo r with
        | none => rw [hps] at h; simp at h
        | some xr =>
          rw [hps] at h
          obtain ⟨x', rest'⟩ := xr
          simp only [Option.some.injEq, Prod.mk.injEq] at h
          obtain ⟨hx, hr⟩ := h
          subst hx; subst hr
          obtain ⟨he, hne⟩ := ih hps
          exact ⟨by rw [List.cons_append, ← he], hne⟩

/-- pathScan consumes a nonempty initial segment and stops at its rest. -/
theorem pathScan_spec : ∀ {l x rest : List Char}, pathScan l = some (x, rest) →
    l = x ++ rest ∧ x ≠ [] ∧ rest ≠ [] := by
  intro l x rest h
  cases l with
  | nil => simp [pathScan] at h
  | cons c r =>
    simp only [pathScan] at h
    by_cases hn : isNl c
    · simp [hn] at h
    · rw [if_neg hn] at h
      cases hps : pathScanGo r with
      | none => rw [hps] at h; simp at h
      | some xr =>
        rw [hps] at h
        obtain ⟨x', rest'⟩ := xr
        simp only [Option.some.injEq, Prod.mk.injEq] at h
        obtain ⟨hx, hr⟩ := h
        subst hx; subst hr
        obtain ⟨he, hne⟩ := pathScanGo_spec hps
        exact ⟨by rw [List.cons_append, ← he], by simp, hne⟩

/-- A successful matchTail consumes at most the whole list, returns a
nonempty path, and the consumed prefix contains the path. -/
theorem matchTail_spec {l : List Char} {len : Nat} {p : List Char}
    (h : matchTail l = some (len, p)) :
    len ≤ l.length ∧ p ≠ [] ∧ ∃ A B, l.take len = A ++ p ++ B := by
  unfold matchTail at h
  split at h
  case h_2 => exact absurd h (by simp)
  case h_1 _ l1 =>
    simp only at h
    split at h
    case isTrue => exact absurd h (by simp)
    case isFalse hws =>
      split at h
      case h_2 => exact absurd h (by simp)
      case h_1 _ q l4 heq =>
        split at h
        case isFalse => exact absurd h (by simp)
        case isTrue hq =>
          cases hps : pathScan l4 with
          | none => rw [hps] at h; exact absurd h (by simp)
          | some xr =>
            rw [hps] at h
            obtain ⟨x, rest⟩ := xr
            simp only at h
            cases rest with
            | nil => exact absurd h (by simp)
            | cons q2 after =>
              simp only [Option.some.injEq, Prod.mk.injEq] at h
              obtain ⟨hlen, hp⟩ := h
              obtain ⟨he4, hxne, _⟩ := pathScan_spec hps
              have hl1 : l1 = l1.takeWhile isWs ++ (q :: '.' :: l4) := by
                conv_lhs => rw [← List.takeWhile_append_dropWhile isWs l1, heq]
              have hdecomp :
                  'f' :: 'r' :: 'o' :: 'm' :: l1 =
                    ((('f' :: 'r' :: 'o' :: 'm' :: l1.takeWhile isWs) ++ [q]) ++ ('.' :: x)) ++
                      (q2 :: after) := by
                conv_lhs => rw [hl1]
                simp [he4]
              have hsemi : semiLen after ≤ after.length := by
                unfold semiLen
                split
                · simp
                · simp
              subst hp
              subst hlen
              refine ⟨?_, by simp, ?_⟩
              · rw [hdecomp]
                simp only [List.length_append, List.length_cons, List.length_nil]
                omega
              · refine ⟨('f' :: 'r' :: 'o' :: 'm' :: l1.takeWhile isWs) ++ [q],
                  (q2 :: after).take (1 + semiLen after), ?_⟩
                rw [hdecomp]
                have hlen2 :
                    4 + (l1.takeWhile isWs).length + 2 + x.length + 1 + semiLen after =
                      ((('f' :: 'r' :: 'o' :: 'm' :: l1.takeWhile isWs) ++ [q]) ++
                          ('.' :: x)).length + (1 + semiLen after) := by
                  simp only [List.length_append, List.length_cons, List.length_nil]
                  omega
                rw [hlen2, List.take_append]

/-- findTail inherits the matchTail facts shifted by the gap offset. -/
theorem findTail_spec : ∀ {l : List Char} {k len : Nat} {p : List Char},
    findTail l = some (k, len, p) →
    k + len ≤ l.length ∧ p ≠ [] ∧ ∃ A B, (l.drop k).take len = A ++ p ++ B := by
  intro l
  induction l with
  | nil => intro k len p h; simp [findTail] at h
  | cons c r ih =>
    intro k len p h
    simp only [findTail] at h
    cases hmt : matchTail (c :: r) with
    | some lp =>
      rw [hmt] at h
      obtain ⟨len', p'⟩ := lp
      simp only [Option.some.injEq, Prod.mk.injEq] at h
      obtain ⟨hk, hlen, hp⟩ := h
      subst hk; subst hlen; subst hp
      obtain ⟨h1, h2, h3⟩ := matchTail_spec hmt
      exact ⟨by simpa using h1, h2, by simpa using h3⟩
    | none =>
      rw [hmt] at h
      cases hft : findTail r with
      | none => rw [hft] at h; simp at h
      | some klp =>
        rw [hft] at h
        obtain ⟨k', len', p'⟩ := klp
        simp only [Option.some.injEq, Prod.mk.injEq] at h
        obtain ⟨hk, hlen, hp⟩ := h
        subst hk; subst hlen; subst hp
        obtain ⟨h1, h2, h3⟩ := ih hft
        refine ⟨by simp; omega, h2, ?_⟩
        simpa using h3

/-- findMatch: the match fits in the list, the path is nonempty, and the
match region contains the path. -/
theorem findMatch_spec : ∀ {l : List Char} {ms mlen : Nat} {p : List Char},
    findMatch l = some (ms, mlen, p) →
    ms + mlen ≤ l.length ∧ p ≠ [] ∧ ∃ A B, (l.drop ms).take mlen = A ++ p ++ B := by
  intro l
  induction l with
  | nil => intro ms mlen p h; simp [findMatch] at h
  | cons c r ih =>
    intro ms mlen p h
    simp only [findMatch] at h
    split at h
    case isTrue hkw =>
      cases hft : findTail ((c :: r).drop 6) with
      | some klp =>
        rw [hft] at h
        obtain ⟨k, tlen, p'⟩ := klp
        simp only [Option.some.injEq, Prod.mk.injEq] at h
        obtain ⟨hms, hmlen, hp⟩ := h
        subst hms; subst hmlen; subst hp
        obtain ⟨h1, h2, h3⟩ := findTail_spec hft
        have hlen6 : 6 ≤ (c :: r).length := by
          rcases Bool.or_eq_true _ _ |>.mp hkw with hh | hh
          · have := (List.isPrefixOf_iff_prefix.mp hh).length_le
            simpa using this
          · have := (List.isPrefixOf_iff_prefix.mp hh).length_le
            simpa using this
        refine ⟨?_, h2, ?_⟩
        · have : ((c :: r).drop 6).length = (c :: r).length - 6 := by simp
          omega
        · obtain ⟨A, B, hAB⟩ := h3
          refine ⟨(c :: r).take (6 + k) ++ A, B, ?_⟩
        -- take (6+k+tlen) (c::r) = take (6+k) (c::r) ++ ((c::r).drop (6+k)).take tlen
          rw [List.drop_zero, listTakeAdd (6 + k) tlen (c :: r)]
          rw [List.append_assoc, List.append_assoc]
          congr 1
          rw [← List.append_assoc, ← hAB]
          congr 1
          rw [List.drop_drop]
      | none =>
        rw [hft] at h
        cases hfm : findMatch r with
        | none => rw [hfm] at h; simp at h
        | some mm =>
          rw [hfm] at h
          obtain ⟨ms', mlen', p'⟩ := mm
          simp only [Option.some.injEq, Prod.mk.injEq] at h
          obtain ⟨hms, hmlen, hp⟩ := h
          subst hms; subst hmlen; subst hp
          obtain ⟨h1, h2, h3⟩ := ih hfm
          exact ⟨by simp; omega, h2, by simpa using h3⟩
    case isFalse =>
      cases hfm : findMatch r with
      | none => rw [hfm] at h; simp at h
      | some mm =>
        rw [hfm] at h
        obtain ⟨ms', mlen', p'⟩ := mm
        simp only [Option.some.injEq, Prod.mk.injEq] at h
        obtain ⟨hms, hmlen, hp⟩ := h
        subst hms; subst hmlen; subst hp
        obtain ⟨h1, h2, h3⟩ := ih hfm
        exact ⟨by simp; omega, h2, by simpa using h3⟩

/-- Length of a first-occurrence replacement when the pattern does occur. -/
theorem replaceFirst_length : ∀ {l : List Char} {pat rep : List Char},
    pat ≠ [] → (∃ A B, l = A ++ pat ++ B) →
    (replaceFirst l pat rep).length = l.length - pat.length + rep.length := by
  intro l
  induction l with
  | nil =>
    intro pat rep hne hocc
    obtain ⟨A, B, hAB⟩ := hocc
    have hlen := congrArg List.length hAB
    simp only [List.length_nil, List.length_append] at hlen
    have hz : pat.length = 0 := by omega
    exact absurd (List.length_eq_zero.mp hz) hne
  | cons c r ih =>
    intro pat rep hne hocc
    simp only [replaceFirst]
    by_cases hpre : pat.isPrefixOf (c :: r)
    · rw [if_pos hpre]
      have hle : pat.length ≤ (c :: r).length :=
        (List.isPrefixOf_iff_prefix.mp hpre).length_le
      simp only [List.length_append, List.length_drop]
      omega
    · rw [if_neg hpre]
      obtain ⟨A, B, hAB⟩ := hocc
      cases A with
      | nil =>
        exfalso
        apply hpre
        rw [List.isPrefixOf_iff_prefix, hAB]
        simp only [List.nil_append]
        exact List.prefix_append pat B
      | cons a A' =>
        have hr : r = A' ++ pat ++ B := by
          simpa using congrArg List.tail hAB
        have hlen : pat.length ≤ r.length := by
          rw [hr]; simp only [List.length_append]; omega
        have hrec := @ih pat rep hne ⟨A', B, hr⟩
        simp only [List.length_cons, hrec]
        omega

/-! The processFile exec loop: flag characterization, output decomposition,
identity on trigger-free inputs, and output length. -/

/-- The modified flag ends true exactly when some visited match triggers. -/
theorem processGo_fst (exts : List Char → Bool) (content : List Char) :
    ∀ (fuel pos lastIndex : Nat) (acc : List Char) (modified : Bool),
      (processGo exts content fuel pos lastIndex acc modified).fst
        = (modified || (matchesGo content fuel pos).any (fun m => trigger exts m.2.2)) := by
  intro fuel
  induction fuel with
  | zero => intro pos lastIndex acc modified; simp [processGo, matchesGo]
  | succ fuel ih =>
    intro pos lastIndex acc modified
    simp only [processGo, matchesGo]
    cases hfm : findMatch (content.drop pos) with
    | none => simp
    | some m =>
      obtain ⟨ms, mlen, p⟩ := m
      simp only
      by_cases ht : trigger exts p
      · rw [if_pos ht, ih]
        simp [ht]
      · rw [if_neg ht, ih]
        simp [ht]

/-- The built newContent plus the final copy decomposes into gap/piece runs. -/
theorem processGo_snd (exts : List Char → Bool) (content : List Char) :
    ∀ (fuel pos lastIndex : Nat) (acc : List Char) (modified : Bool), lastIndex ≤ pos →
      (processGo exts content fuel pos lastIndex acc modified).snd
        = acc ++ extractR content lastIndex pos ++ piecesGo exts content fuel pos := by
  intro fuel
  induction fuel with
  | zero =>
    intro pos lastIndex acc modified hle
    simp only [processGo, piecesGo]
    rw [drop_eq_extractR_append content hle, List.append_assoc]
  | succ fuel ih =>
    intro pos lastIndex acc modified hle
    simp only [processGo, piecesGo]
    cases hfm : findMatch (content.drop pos) with
    | none =>
      simp only
      rw [drop_eq_extractR_append content hle, List.append_assoc]
    | some m =>
      obtain ⟨ms, mlen, p⟩ := m
      simp only
      by_cases ht : trigger exts p
      · rw [if_pos ht, ih _ _ _ _ (Nat.le_refl _), extractR_self]
        rw [pieceOf, if_pos ht]
        rw [extractR_split content hle (Nat.le_add_right pos ms)]
        simp [List.append_assoc]
      · rw [if_neg ht, ih _ _ _ _ (by omega), pieceOf, if_neg ht]
        rw [extractR_split content hle (show pos ≤ pos + ms + mlen by omega),
          extractR_split content (Nat.le_add_right pos ms) (Nat.le_add_right (pos + ms) mlen)]
        simp [List.append_assoc]

/-- When every visited match is skipped the pieces are the input itself. -/
theorem piecesGo_id (exts : List Char → Bool) (content : List Char) :
    ∀ (fuel pos : Nat),
      ((matchesGo content fuel pos).all (fun m => !trigger exts m.2.2)) = true →
      piecesGo exts content fuel pos = content.drop pos := by
  intro fuel
  induction fuel with
  | zero => intro pos _; rfl
  | succ fuel ih =>
    intro pos hall
    simp only [matchesGo] at hall
    simp only [piecesGo]
    cases hfm : findMatch (content.drop pos) with
    | none => rfl
    | some m =>
      obtain ⟨ms, mlen, p⟩ := m
      rw [hfm] at hall
      simp only [List.all_cons, Bool.and_eq_true, Bool.not_eq_true'] at hall
      obtain ⟨ht, hrest⟩ := hall
      simp only
      rw [pieceOf, if_neg (by simp [ht]), ih _ hrest]
      rw [drop_eq_extractR_append content (Nat.le_add_right pos ms),
        drop_eq_extractR_append content (Nat.le_add_right (pos + ms) mlen)]
      simp [List.append_assoc]

/-- Each triggered match contributes exactly the three characters of ".ts". -/
theorem piecesGo_length (exts : List Char → Bool) (content : List Char) :
    ∀ (fuel pos : Nat),
      (piecesGo exts content fuel pos).length
        = (content.drop pos).length +
            3 * ((matchesGo content fuel pos).filter (fun m => trigger exts m.2.2)).length := by
  intro fuel
  induction fuel with
  | zero => intro pos; simp [piecesGo, matchesGo]
  | succ fuel ih =>
    intro pos
    simp only [piecesGo, matchesGo]
    cases hfm : findMatch (content.drop pos) with
    | none => simp
    | some m =>
      obtain ⟨ms, mlen, p⟩ := m
      simp only
      obtain ⟨hfit, hpne, A, B, hAB⟩ := findMatch_spec hfm
      have hregion : extractR content (pos + ms) (pos + ms + mlen)
          = ((content.drop pos).drop ms).take mlen := by
        unfold extractR
        rw [List.drop_drop]
        congr 1
        omega
      have hfit2 : ms + mlen ≤ content.length - pos := by
        simpa using hfit
      have hreglen : (extractR content (pos + ms) (pos + ms + mlen)).length = mlen := by
        rw [hregion, List.length_take, List.length_drop, List.length_drop]
        omega
      have hgaplen : (extractR content pos (pos + ms)).length = ms := by
        unfold extractR
        rw [List.length_take, List.length_drop]
        omega
      have hplen : p.length ≤ mlen := by
        have := congrArg List.length hAB
        simp only [List.length_append] at this
        have htk : (((content.drop pos).drop ms).take mlen).length ≤ mlen := by
          rw [List.length_take]; omega
        omega
      have hdrops : (content.drop (pos + ms + mlen)).length
          = (content.drop pos).length - ms - mlen := by
        simp only [List.length_drop]
        omega
      by_cases ht : trigger exts p
      · rw [pieceOf, if_pos ht]
        have hrl : (replaceFirst (extractR content (pos + ms) (pos + ms + mlen)) p
            (p ++ (".ts").toList)).length
            = (extractR content (pos + ms) (pos + ms + mlen)).length - p.length +
              (p ++ (".ts").toList).length := by
          apply replaceFirst_length hpne
          exact ⟨A, B, by rw [hregion, hAB]⟩
        rw [List.filter_cons_of_pos (by simpa using ht)]
        simp only [List.length_append, List.length_cons, hrl, hreglen, hgaplen,
          List.length_take, List.length_drop, ih]
        simp only [List.length_append] at hrl ⊢
        have hts : ((".ts").toList).length = 3 := by decide
        simp only [List.length_drop] at *
        omega
      · rw [pieceOf, if_neg ht]
        rw [List.filter_cons_of_neg (by simpa using ht)]
        simp only [List.length_append, hreglen, hgaplen, ih]
        simp only [List.length_drop] at *
        omega

/-- The file content after the pass is exactly the gap/piece concatenation,
whether or not a write happened. -/
theorem contentAfter_eq_pieces (exts : List Char → Bool) (content : List Char) :
    contentAfter exts content = piecesGo exts content (content.length + 1) 0 := by
  unfold contentAfter processFile
  have hsnd := processGo_snd exts content (content.length + 1) 0 0 [] false (Nat.le_refl 0)
  have hfst := processGo_fst exts content (content.length + 1) 0 0 [] false
  by_cases hf : (processGo exts content (content.length + 1) 0 0 [] false).fst = true
  · rw [extractR_self, List.nil_append, List.nil_append] at hsnd
    simp [hf, hsnd]
  · have hf' : (processGo exts content (content.length + 1) 0 0 [] false).fst = false :=
      Bool.not_eq_true _ |>.mp hf
    rw [hf'] at hfst
    have hany : (matchesGo content (content.length + 1) 0).any
        (fun m => trigger exts m.2.2) = false := by
      simpa using hfst.symm
    have hall : (matchesGo content (content.length + 1) 0).all
        (fun m => !trigger exts m.2.2) = true := by
      rw [List.all_eq_true]
      intro m hm
      have := List.any_eq_false.mp hany m hm
      simpa using this
    rw [piecesGo_id exts content _ 0 hall]
    simp [hf']

/-- Claim C3: for every relative import/export specifier matched in a
processed file, if no sibling `<resolved>.ts` exists (the existence oracle is
false on that match's path) then the extension rewriter leaves that
specifier's matched region byte-for-byte unchanged: the region's piece in the
output is the region itself, and the file content after the pass is exactly
the concatenation of the gaps and pieces, so the rewriter never guesses an
extension. -/
theorem extension_rewriter_no_guess (exts : List Char → Bool) (content : List Char)
    (ms mlen : Nat) (p : List Char) (_hm : (ms, mlen, p) ∈ matchList content)
    (hno : exts p = false) :
    pieceOf exts content ms mlen p = extractR content ms (ms + mlen) ∧
      contentAfter exts content = piecesGo exts content (content.length + 1) 0 := by
  constructor
  · rw [pieceOf, if_neg]
    simp [trigger, hno]
  · exact contentAfter_eq_pieces exts content

/-- Witness for C3 at a concrete input: the test scenario file with no
sibling on disk is left unchanged at its matched specifier. -/
theorem extension_rewriter_no_guess_witness :
    (0, 28, ("./fileB").toList) ∈
        matchList (("import \x7b B \x7d from \x22./fileB\x22;").toList) ∧
      (pieceOf (fun _ => false) (("import \x7b B \x7d from \x22./fileB\x22;").toList) 0 28
            (("./fileB").toList)
          = extractR (("import \x7b B \x7d from \x22./fileB\x22;").toList) 0 (0 + 28) ∧
        contentAfter (fun _ => false) (("import \x7b B \x7d from \x22./fileB\x22;").toList)
          = piecesGo (fun _ => false) (("import \x7b B \x7d from \x22./fileB\x22;").toList)
              ((("import \x7b B \x7d from \x22./fileB\x22;").toList).length + 1) 0) :=
  ⟨by decide,
    extension_rewriter_no_guess (fun _ => false)
      (("import \x7b B \x7d from \x22./fileB\x22;").toList) 0 28 (("./fileB").toList)
      (by decide) (by decide)⟩

/-- Claim C8: the extension rewriter accumulates every rewrite of a file into
one newContent value and the embedding performs at most the single final
write; the write happens exactly when some match triggers a rewrite, and the
written content is then strictly longer than (in particular different from)
the original, while a file with zero applicable rewrites is never written. -/
theorem extension_rewriter_write_iff_changed (exts : List Char → Bool) (content : List Char) :
    ((processFile exts content).isSome
        = (matchList content).any (fun m => trigger exts m.2.2)) ∧
      (∀ c, processFile exts content = some c → content.length < c.length ∧ c ≠ content) := by
  have hfst := processGo_fst exts content (content.length + 1) 0 0 [] false
  have hsnd := processGo_snd exts content (content.length + 1) 0 0 [] false (Nat.le_refl 0)
  rw [extractR_self, List.nil_append, List.nil_append] at hsnd
  constructor
  · unfold processFile matchList
    by_cases hf : (processGo exts content (content.length + 1) 0 0 [] false).fst = true
    · rw [hf] at hfst
      simp only [hf, if_true, Option.isSome_some]
      simpa using hfst.symm
    · have hf' : (processGo exts content (content.length + 1) 0 0 [] false).fst = false :=
        Bool.not_eq_true _ |>.mp hf
      rw [hf'] at hfst
      simp only [hf', Bool.false_eq_true, if_false, Option.isSome_none]
      simpa using hfst.symm
  · intro c hc
    unfold processFile at hc
    by_cases hf : (processGo exts content (content.length + 1) 0 0 [] false).fst = true
    · rw [hf] at hfst
      simp only [hf, if_true, Option.some.injEq] at hc
      have hany : (matchesGo content (content.length + 1) 0).any
          (fun m => trigger exts m.2.2) = true := by simpa using hfst.symm
      obtain ⟨m, hmem, hmt⟩ := List.any_eq_true.mp hany
      have hcount : 1 ≤ ((matchesGo content (content.length + 1) 0).filter
          (fun m => trigger exts m.2.2)).length := by
        have : m ∈ (matchesGo content (content.length + 1) 0).filter
            (fun m => trigger exts m.2.2) := List.mem_filter.mpr ⟨hmem, hmt⟩
        exact List.length_pos.mpr (List.ne_nil_of_mem this)
      have hlen := piecesGo_length exts content (content.length + 1) 0
      rw [List.drop_zero] at hlen
      have hclen : c.length = content.length +
          3 * ((matchesGo content (content.length + 1) 0).filter
            (fun m => trigger exts m.2.2)).length := by
        rw [← hc, hsnd, hlen]
      constructor
      · omega
      · intro heq
        rw [heq] at hclen
        omega
    · have hf' : (processGo exts content (content.length + 1) 0 0 [] false).fst = false :=
        Bool.not_eq_true _ |>.mp hf
      simp [hf'] at hc

/-- Witness for C8 at a concrete input: the test scenario file with its
sibling present is written, three characters longer. -/
theorem extension_rewriter_write_iff_changed_witness :
    ((processFile (fun p => p == ("./fileB").toList)
          (("import \x7b B \x7d from \x22./fileB\x22;").toList)).isSome
        = (matchList (("import \x7b B \x7d from \x22./fileB\x22;").toList)).any
            (fun m => trigger (fun p => p == ("./fileB").toList) m.2.2)) ∧
      ((("import \x7b B \x7d from \x22./fileB\x22;").toList).length <
          (("import \x7b B \x7d from \x22./fileB.ts\x22;").toList).length ∧
        (("import \x7b B \x7d from \x22./fileB.ts\x22;").toList : List Char)
          ≠ (("import \x7b B \x7d from \x22./fileB\x22;").toList)) :=
  ⟨(extension_rewriter_write_iff_changed (fun p => p == ("./fileB").toList)
      (("import \x7b B \x7d from \x22./fileB\x22;").toList)).1,
    (extension_rewriter_write_iff_changed (fun p => p == ("./fileB").toList)
      (("import \x7b B \x7d from \x22./fileB\x22;").toList)).2
      (("import \x7b B \x7d from \x22./fileB.ts\x22;").toList) (by decide)⟩

/-- Claim C2 (code bug): the extension rewrite pass is not idempotent.  The
splice `match[0].replace(importPath, newImportPath)` rewrites the first
occurrence of the path text inside the matched region, which can lie in
non-specifier text before the quoted specifier; the quoted specifier then
stays unchanged and the next run rewrites the same match again.  On the file
`import x /* ./b */ from "./b";` with sibling b.ts present the first run
grows the comment to ./b.ts and the second run grows it again to ./b.ts.ts,
so the second run changes file content, contradicting the spec and the
repository's own README claim that the pass is idempotent. -/
theorem extension_rewrite_second_run_changes :
    processFile (fun p => p == ("./b").toList)
        (("import x /* ./b */ from \x22./b\x22;").toList)
        = some (("import x /* ./b.ts */ from \x22./b\x22;").toList) ∧
      processFile (fun p => p == ("./b").toList)
        (("import x /* ./b.ts */ from \x22./b\x22;").toList)
        = some (("import x /* ./b.ts.ts */ from \x22./b\x22;").toList) ∧
      (("import x /* ./b.ts.ts */ from \x22./b\x22;").toList : List Char)
        ≠ (("import x /* ./b.ts */ from \x22./b\x22;").toList) :=
  ⟨by decide, by decide, by decide⟩

/-- Claim C1: for every import statement split by the type-only rewriter
updateImportStatement and every list of type-only names, the multiset of
bound names across the emitted value-import half and type-only-import half
equals the multiset of bound names of the input statement, and the two
halves are disjoint: every input name appears in exactly one of them. -/
theorem update_import_statement_conserves_names (stmt : ImportStmt)
    (typeOnlyImports : List (List Char)) :
    ((regularImportsOf stmt typeOnlyImports : Multiset (List Char)) +
        (typeImportsOf stmt typeOnlyImports : Multiset (List Char))
        = (stmt.imports.map ImportName.name : Multiset (List Char))) ∧
      (∀ n, ¬(n ∈ regularImportsOf stmt typeOnlyImports ∧
        n ∈ typeImportsOf stmt typeOnlyImports)) ∧
      (∀ n, n ∈ stmt.imports.map ImportName.name →
        (n ∈ regularImportsOf stmt typeOnlyImports ∨
          n ∈ typeImportsOf stmt typeOnlyImports)) := by
  refine ⟨?_, ?_, ?_⟩
  · rw [Multiset.coe_add, Multiset.coe_eq_coe]
    unfold regularImportsOf typeImportsOf
    rw [← List.map_append]
    apply List.Perm.map
    have hperm := List.filter_append_perm
      (fun imp => !(typeOnlyImports.contains imp.name)) stmt.imports
    simpa [Bool.not_not] using hperm
  · rintro n ⟨h1, h2⟩
    unfold regularImportsOf at h1
    unfold typeImportsOf at h2
    obtain ⟨imp1, hm1, hn1⟩ := List.mem_map.mp h1
    obtain ⟨imp2, hm2, hn2⟩ := List.mem_map.mp h2
    have hq1 := (List.mem_filter.mp hm1).2
    have hq2 := (List.mem_filter.mp hm2).2
    rw [hn1] at hq1
    rw [hn2] at hq2
    simp only [Bool.not_eq_true'] at hq1
    rw [hq1] at hq2
    exact absurd hq2 (by simp)
  · intro n hn
    obtain ⟨imp, himp, hname⟩ := List.mem_map.mp hn
    by_cases hc : typeOnlyImports.contains imp.name = true
    · right
      unfold typeImportsOf
      exact List.mem_map.mpr ⟨imp, List.mem_filter.mpr ⟨himp, hc⟩, hname⟩
    · left
      unfold regularImportsOf
      have hcf : typeOnlyImports.contains imp.name = false := Bool.not_eq_true _ |>.mp hc
      exact List.mem_map.mpr
        ⟨imp, List.mem_filter.mpr ⟨himp, by simp only [Bool.not_eq_true']; exact hcf⟩, hname⟩

/-- Witness for C1 at the scenario statement
`import { Static, Type, value } from "@sinclair/typebox";` with Static
flagged: the halves carry all three names and Static lands in one half. -/
theorem update_import_statement_conserves_names_witness :
    ((regularImportsOf
          { line := 1, fullStatement := [], module := ("@sinclair/typebox").toList,
            imports := [{ name := ("Static").toList, isType := false },
              { name := ("Type").toList, isType := false },
              { name := ("value").toList, isType := false }] }
          [("Static").toList] : Multiset (List Char)) +
        (typeImportsOf
          { line := 1, fullStatement := [], module := ("@sinclair/typebox").toList,
            imports := [{ name := ("Static").toList, isType := false },
              { name := ("Type").toList, isType := false },
              { name := ("value").toList, isType := false }] }
          [("Static").toList] : Multiset (List Char))
        = (([("Static").toList, ("Type").toList, ("value").toList] :
            List (List Char)) : Multiset (List Char))) ∧
      (("Static").toList ∈ regularImportsOf
          { line := 1, fullStatement := [], module := ("@sinclair/typebox").toList,
            imports := [{ name := ("Static").toList, isType := false },
              { name := ("Type").toList, isType := false },
              { name := ("value").toList, isType := false }] }
          [("Static").toList] ∨
        ("Static").toList ∈ typeImportsOf
          { line := 1, fullStatement := [], module := ("@sinclair/typebox").toList,
            imports := [{ name := ("Static").toList, isType := false },
              { name := ("Type").toList, isType := false },
              { name := ("value").toList, isType := false }] }
          [("Static").toList]) :=
  ⟨(update_import_statement_conserves_names _ _).1,
    (update_import_statement_conserves_names _ _).2.2 (("Static").toList) (by decide)⟩

/-- A list whose tail (after any cons) is of interest stays a suffix. -/
theorem suffix_of_cons_suffix {a : Char} {l w : List Char} (h : (a :: l) <:+ w) : l <:+ w :=
  (List.suffix_cons a l).trans h

/-- The rest returned by expectColonDigits is a suffix of its input. -/
theorem expectColonDigits_suffix {l r : List Char} {n : Nat}
    (h : expectColonDigits l = some (n, r)) : r <:+ l := by
  unfold expectColonDigits at h
  split at h
  case h_2 => exact absurd h (by simp)
  case h_1 r0 =>
    simp only at h
    split at h
    case isTrue => exact absurd h (by simp)
    case isFalse =>
      simp only [Option.some.injEq, Prod.mk.injEq] at h
      rw [← h.2]
      exact (List.dropWhile_suffix isDigitCh).trans (List.suffix_cons ':' _)

/-- The rest returned by expectWs is a suffix of its input. -/
theorem expectWs_suffix {l r : List Char} (h : expectWs l = some r) : r <:+ l := by
  unfold expectWs at h
  split at h
  · exact absurd h (by simp)
  · simp only [Option.some.injEq] at h
    rw [← h]
    exact List.dropWhile_suffix isWs

/-- A successful literal consumption decomposes its input. -/
theorem expectLit_decomp : ∀ {lit l r : List Char}, expectLit lit l = some r → l = lit ++ r := by
  intro lit
  induction lit with
  | nil =>
    intro l r h
    simp only [expectLit, Option.some.injEq] at h
    rw [h]
    rfl
  | cons c cs ih =>
    intro l r h
    cases l with
    | nil => exact absurd h (by simp [expectLit])
    | cons x xs =>
      simp only [expectLit] at h
      split at h
      case isTrue hx => rw [hx, List.cons_append, ← ih h]
      case isFalse => exact absurd h (by simp)

/-- A successful matchDiagTail implies the literal text TS1484 occurs. -/
theorem matchDiagTail_ts1484 {l : List Char} {trip : Nat × Nat × List Char}
    (h : matchDiagTail l = some trip) : ∃ A B, l = A ++ ("TS1484").toList ++ B := by
  unfold matchDiagTail at h
  split at h
  case h_1 => exact absurd h (by simp)
  case h_2 ln l1 h1 =>
  split at h
  case h_1 => exact absurd h (by simp)
  case h_2 col l2 h2 =>
  split at h
  case h_1 => exact absurd h (by simp)
  case h_2 l3 h3 =>
  split at h
  case h_1 => exact absurd h (by simp)
  case h_2 l4 h4 =>
  split at h
  case h_1 => exact absurd h (by simp)
  case h_2 l5 h5 =>
  split at h
  case h_1 => exact absurd h (by simp)
  case h_2 l6 h6 =>
  split at h
  case h_1 => exact absurd h (by simp)
  case h_2 l7 h7 =>
  split at h
  case h_1 => exact absurd h (by simp)
  case h_2 l8 h8 =>
  have s1 : l1 <:+ l := expectColonDigits_suffix h1
  have s2 : l2 <:+ l1 := expectColonDigits_suffix h2
  have s3 : l3 <:+ l2 := expectWs_suffix h3
  have s4 : l4 <:+ l3 := by
    rw [expectLit_decomp h4]; exact List.suffix_append _ _
  have s5 : l5 <:+ l4 := expectWs_suffix h5
  have s6 : l6 <:+ l5 := by
    rw [expectLit_decomp h6]; exact List.suffix_append _ _
  have s7 : l7 <:+ l6 := expectWs_suffix h7
  have hsuf : l7 <:+ l :=
    s7.trans (s6.trans (s5.trans (s4.trans (s3.trans (s2.trans s1)))))
  have hdec : l7 = ("TS1484").toList ++ (':' :: l8) := by
    have := expectLit_decomp h8
    rw [this]
    have hts : (("TS1484:").toList : List Char)
        = ("TS1484").toList ++ [':'] := by decide
    rw [hts, List.append_assoc]
    rfl
  exact decomp_of_suffix_starts hsuf ⟨':' :: l8, hdec⟩


/-- A successful greedy file-prefix search means the diagnostic tail matched
at some positive offset. -/
theorem tryDiagFrom_some : ∀ {i : Nat} {l : List Char} {e : List Char × Nat × Nat × List Char},
    tryDiagFrom l i = some e → ∃ j, 1 ≤ j ∧ matchDiagTail (l.drop j) = some e.2 := by
  intro i
  induction i with
  | zero => intro l e h; simp [tryDiagFrom] at h
  | succ i ih =>
    intro l e h
    simp only [tryDiagFrom] at h
    split at h
    case h_1 ln col nm heq =>
      split at heq
      case isTrue =>
        simp only [Option.some.injEq] at h
        refine ⟨i + 1, by omega, ?_⟩
        rw [heq, ← h]
      case isFalse => exact absurd heq (by simp)
    case h_2 => exact ih h

/-- Claim C5: parseTscOutput produces exactly one ImportError per line whose
trimmed text matches the TS1484 diagnostic pattern, in input order — the
output is precisely the filterMap of the per-line matcher over the split
lines, so non-matching lines contribute nothing; a line can only match when
it contains the literal text TS1484, so a well-formed diagnostic with a
different code yields no entry; and empty input yields the empty list (the
embedding is a total function, modelling that malformed input never raises). -/
theorem parse_tsc_output_one_per_line :
    (∀ s : List Char,
      parseTscOutput s = (splitNl s).filterMap
        (fun line => (matchErrorLine (jsTrim line)).map (mkImportError (jsTrim line)))) ∧
      (∀ t e, matchErrorLine t = some e → containsSub (("TS1484").toList) t = true) ∧
      parseTscOutput [] = [] := by
  refine ⟨?_, ?_, ?_⟩
  · intro s
    unfold parseTscOutput
    rw [foldl_pushDiagLine]
    rfl
  · intro t e h
    unfold matchErrorLine at h
    obtain ⟨j, _, hmt⟩ := tryDiagFrom_some h
    obtain ⟨A, B, hd⟩ := matchDiagTail_ts1484 hmt
    have ht : t = (t.take j ++ A) ++ ("TS1484").toList ++ B := by
      conv_lhs => rw [← List.take_append_drop j t]
      rw [hd]
      simp [List.append_assoc]
    exact containsSub_of_decomp (t.take j ++ A) ht
  · rfl

/-- Witness for C5 at the scenario diagnostic line: the matcher succeeds,
the line contains TS1484, and the whole-output characterization applies. -/
theorem parse_tsc_output_one_per_line_witness :
    containsSub (("TS1484").toList)
        (("src/test.ts:1:10 - error TS1484: \x27Static\x27 is a type").toList) = true ∧
      parseTscOutput (("src/test.ts:1:10 - error TS1484: \x27Static\x27 is a type").toList)
        = (splitNl
            (("src/test.ts:1:10 - error TS1484: \x27Static\x27 is a type").toList)).filterMap
              (fun line => (matchErrorLine (jsTrim line)).map (mkImportError (jsTrim line))) :=
  ⟨parse_tsc_output_one_per_line.2.1
      (("src/test.ts:1:10 - error TS1484: \x27Static\x27 is a type").toList)
      ((("src/test.ts").toList, 1, 10, ("Static").toList)) (by decide),
    parse_tsc_output_one_per_line.1
      (("src/test.ts:1:10 - error TS1484: \x27Static\x27 is a type").toList)⟩


/-- Claim C6: generateNewImportStatement emits, in this order, a value-import
line exactly when the remaining value names are nonempty, then a type-only
one for imports exactly when the flagged names are nonempty; and a statement
already written as a type-only import is returned unchanged regardless of
the identifier set supplied by the diagnostics. -/
theorem generate_new_import_statement_shape (s : ImportStatement2)
    (typeIdentifiers : List (List Char)) (indent : List Char) :
    (s.hasTypeOnly = true →
      generateNewImportStatement s typeIdentifiers indent = s.fullImport) ∧
      (s.hasTypeOnly = false → valueImportsOf2 s.imports typeIdentifiers ≠ [] →
        typeImportsOf2 s.imports typeIdentifiers ≠ [] →
        generateNewImportStatement s typeIdentifiers indent
          = (indent ++ valueLineOf (valueImportsOf2 s.imports typeIdentifiers) s.module) ++
            '\n' :: (indent ++ typeLineOf (typeImportsOf2 s.imports typeIdentifiers) s.module)) ∧
      (s.hasTypeOnly = false → valueImportsOf2 s.imports typeIdentifiers ≠ [] →
        typeImportsOf2 s.imports typeIdentifiers = [] →
        generateNewImportStatement s typeIdentifiers indent
          = indent ++ valueLineOf (valueImportsOf2 s.imports typeIdentifiers) s.module) ∧
      (s.hasTypeOnly = false → valueImportsOf2 s.imports typeIdentifiers = [] →
        typeImportsOf2 s.imports typeIdentifiers ≠ [] →
        generateNewImportStatement s typeIdentifiers indent
          = indent ++ typeLineOf (typeImportsOf2 s.imports typeIdentifiers) s.module) ∧
      (s.hasTypeOnly = false → valueImportsOf2 s.imports typeIdentifiers = [] →
        typeImportsOf2 s.imports typeIdentifiers = [] →
        generateNewImportStatement s typeIdentifiers indent = []) := by
  unfold generateNewImportStatement genLines
  refine ⟨?_, ?_, ?_, ?_, ?_⟩
  · intro ht
    rw [if_pos ht]
    rfl
  · intro ht hv htt
    rw [if_neg (by simp [ht]), if_neg (by simp [hv]), if_neg (by simp [htt])]
    rfl
  · intro ht hv htt
    rw [if_neg (by simp [ht]), if_neg (by simp [hv]), if_pos (by simp [htt])]
    rfl
  · intro ht hv htt
    rw [if_neg (by simp [ht]), if_pos (by simp [hv]), if_neg (by simp [htt])]
    rfl
  · intro ht hv htt
    rw [if_neg (by simp [ht]), if_pos (by simp [hv]), if_pos (by simp [htt])]
    rfl

/-- Witness for C6: the already-type-only scenario statement passes through
unchanged, and a mixed fastify statement is split value first, type second. -/
theorem generate_new_import_statement_shape_witness :
    generateNewImportStatement
        { line := 1,
          fullImport := ("import type \x7b Static, Type \x7d from \x22@sinclair/typebox\x22;").toList,
          module := ("@sinclair/typebox").toList,
          imports := [("Static").toList, ("Type").toList], hasTypeOnly := true }
        [("Static").toList] (("").toList)
      = ("import type \x7b Static, Type \x7d from \x22@sinclair/typebox\x22;").toList ∧
      generateNewImportStatement
        { line := 1, fullImport := [], module := ("fastify").toList,
          imports := [("FastifyInstance").toList, ("fastify").toList], hasTypeOnly := false }
        [("FastifyInstance").toList] (("  ").toList)
      = ((("  ").toList) ++
          valueLineOf
            (valueImportsOf2 [("FastifyInstance").toList, ("fastify").toList]
              [("FastifyInstance").toList]) (("fastify").toList)) ++
        '\n' :: ((("  ").toList) ++
          typeLineOf
            (typeImportsOf2 [("FastifyInstance").toList, ("fastify").toList]
              [("FastifyInstance").toList]) (("fastify").toList)) :=
  ⟨(generate_new_import_statement_shape _ _ _).1 rfl,
    (generate_new_import_statement_shape _ _ _).2.1 rfl (by decide) (by decide)⟩

/-- Claim C7 counterexample: the updateImportStatement rewriter variant does
not re-indent.  The indented file `  import { A } from "m";` with A flagged
on line 1 is written back as an unindented type-only import: the emitted
replacement line does not begin with the original leading whitespace. -/
theorem update_import_statement_drops_indent :
    fixImportsInFile
        [{ filePath := ("f.ts").toList, line := 1, column := 12,
            typeName := ("A").toList, errorMessage := [] }] (("f.ts").toList)
        (("  import \x7b A \x7d from \x22m\x22;").toList)
      = some (("import type \x7b A \x7d from \x22m\x22;").toList) ∧
      (("  ").toList).isPrefixOf (("import type \x7b A \x7d from \x22m\x22;").toList)
        = false :=
  ⟨by decide, by decide⟩

/-- Claim C7 (amended): the generateNewImportStatement variant re-indents
every emitted line with the captured indentation — each element of its
emitted line list begins with the supplied indent, provided (for the
pass-through of an already-type-only statement) the indent is a prefix of
the statement's original text, which holds at its call site because the
indent is captured from that very line; the updateImportStatement variant
instead emits its lines at column zero, as the counterexample shows. -/
theorem generate_new_import_statement_indents (s : ImportStatement2)
    (typeIdentifiers : List (List Char)) (indent : List Char)
    (hpre : indent.isPrefixOf s.fullImport = true) :
    generateNewImportStatement s typeIdentifiers indent
        = joinNl (genLines s typeIdentifiers indent) ∧
      ∀ l ∈ genLines s typeIdentifiers indent, indent.isPrefixOf l = true := by
  refine ⟨rfl, ?_⟩
  intro l hl
  unfold genLines at hl
  by_cases ht : s.hasTypeOnly = true
  · rw [if_pos ht] at hl
    simp only [List.mem_singleton] at hl
    rw [hl]
    exact hpre
  · rw [if_neg ht, List.mem_append] at hl
    have hgen : ∀ (x : List Char), l = indent ++ x → indent.isPrefixOf l = true := by
      intro x hx
      rw [hx, List.isPrefixOf_iff_prefix]
      exact List.prefix_append indent x
    rcases hl with hl | hl
    · split at hl
      · simp at hl
      · simp only [List.mem_singleton] at hl
        exact hgen _ hl
    · split at hl
      · simp at hl
      · simp only [List.mem_singleton] at hl
        exact hgen _ hl

/-- Witness for C7 at a concrete mixed statement: the first emitted line of
the split begins with the captured two-space indent. -/
theorem generate_new_import_statement_indents_witness :
    (("  ").toList).isPrefixOf
        ((("  ").toList) ++
          valueLineOf
            (valueImportsOf2 [("FastifyInstance").toList, ("fastify").toList]
              [("FastifyInstance").toList]) (("fastify").toList)) = true :=
  (generate_new_import_statement_indents
      { line := 1, fullImport := ("  x").toList, module := ("fastify").toList,
        imports := [("FastifyInstance").toList, ("fastify").toList], hasTypeOnly := false }
      [("FastifyInstance").toList] (("  ").toList) (by decide)).2
    _ (by decide)

/-- Claim C9: fixImportsInFile writes back every file for which at least one
ImportError is recorded — the write happens exactly when the file's filtered
error list is nonempty, whether or not any import statement was modified;
the second conjunct exhibits a file with a recorded error but with no
matching statement, whose written content is byte-identical to the original,
so the extension variant's write-only-if-changed guarantee does not hold for
this pass. -/
theorem fix_imports_writes_unconditionally :
    (∀ (errors : List ImportError) (filePath fileContent : List Char),
      (fixImportsInFile errors filePath fileContent).isSome
        = !(errors.filter (fun e => e.filePath == filePath)).isEmpty) ∧
      fixImportsInFile
        [{ filePath := ("f.ts").toList, line := 1, column := 1,
            typeName := ("A").toList, errorMessage := [] }] (("f.ts").toList)
        (("const x = 1;").toList)
      = some (("const x = 1;").toList) := by
  constructor
  · intro errors filePath fileContent
    unfold fixImportsInFile
    by_cases he : (errors.filter (fun e => e.filePath == filePath)).isEmpty = true
    · simp [he]
    · have hf : (errors.filter (fun e => e.filePath == filePath)).isEmpty = false :=
        Bool.not_eq_true _ |>.mp he
      simp [hf]
  · decide


/-- Every statement parseGo returns is recorded under the 1-based index of a
line at or after the scan start whose trimmed text begins a non-type import
statement. -/
theorem parseGo_mem : ∀ (rest : List (List Char)) (i : Nat) (s : ImportStmt),
    s ∈ parseGo i rest →
    ∃ j, i ≤ j ∧ j < i + rest.length ∧ s.line = j + 1 ∧
      ("import ").toList.isPrefixOf (jsTrim (rest.getD (j - i) [])) = true ∧
      ("import type ").toList.isPrefixOf (jsTrim (rest.getD (j - i) [])) = false := by
  intro rest
  induction rest with
  | nil => intro i s h; simp [parseGo] at h
  | cons cur rest ih =>
    intro i s h
    have hshift : s ∈ parseGo (i + 1) rest →
        ∃ j, i ≤ j ∧ j < i + (cur :: rest).length ∧ s.line = j + 1 ∧
          ("import ").toList.isPrefixOf (jsTrim ((cur :: rest).getD (j - i) [])) = true ∧
          ("import type ").toList.isPrefixOf (jsTrim ((cur :: rest).getD (j - i) []))
            = false := by
      intro hs
      obtain ⟨j, hj1, hj2, hj3, hj4, hj5⟩ := ih (i + 1) s hs
      have hidx : (cur :: rest).getD (j - i) [] = rest.getD (j - (i + 1)) [] := by
        have hji : j - i = (j - (i + 1)) + 1 := by omega
        rw [hji]
        rfl
      refine ⟨j, by omega, by simp only [List.length_cons]; omega, hj3, ?_, ?_⟩
      · rw [hidx]; exact hj4
      · rw [hidx]; exact hj5
    simp only [parseGo] at h
    split at h
    case isTrue hcond =>
      split at h
      case h_1 => exact hshift h
      case h_2 md hmod =>
        split at h
        case h_1 => exact hshift h
        case h_2 inner himp =>
          rw [List.mem_cons] at h
          rcases h with h | h
          · obtain ⟨hc1, hc2⟩ := Bool.and_eq_true _ _ |>.mp hcond
            refine ⟨i, Nat.le_refl i, by simp, ?_, ?_, ?_⟩
            · rw [h]
            · simpa using hc1
            · simpa using hc2
          · exact hshift h
    case isFalse => exact hshift h

/-- The replacement loop of fixImportsInFile leaves the state untouched when
no statement's recorded line carries an error. -/
theorem foldl_fixStep_id (lines : List (List Char)) (fileErrors : List ImportError) :
    ∀ (stmts : List ImportStmt) (st : List (List Char) × Int),
      (∀ s ∈ stmts, errorsByLine fileErrors s.line = []) →
      stmts.foldl (fixStep lines fileErrors) st = st := by
  intro stmts
  induction stmts with
  | nil => intro st _; rfl
  | cons s stmts ih =>
    intro st hall
    rw [List.foldl_cons]
    have hs := hall s (by simp)
    have hstep : fixStep lines fileErrors st s = st := by
      unfold fixStep
      rw [hs]
      rfl
    rw [hstep]
    exact ih st (fun t ht => hall t (List.mem_cons_of_mem s ht))

/-- Claim C10: parseImportStatements records each import statement, even a
multiline one, under the 1-based number of its first line only — every
parsed statement's recorded line is in range and that recorded line, once
trimmed, begins the statement (it starts with `import ` and not with
`import type `); consequently, when no recorded error line equals any parsed
statement's recorded line — as for a diagnostic whose line number points at
an inner line of a multiline import, where the flagged identifier sits — the
per-line lookup finds no statement and the type-only pass writes the file
content back byte-for-byte unchanged. -/
theorem parse_records_first_line_only :
    (∀ (fileContent : List Char) (s : ImportStmt), s ∈ parseImportStatements fileContent →
      1 ≤ s.line ∧ s.line ≤ (splitNl fileContent).length ∧
        ("import ").toList.isPrefixOf
          (jsTrim ((splitNl fileContent).getD (s.line - 1) [])) = true ∧
        ("import type ").toList.isPrefixOf
          (jsTrim ((splitNl fileContent).getD (s.line - 1) [])) = false) ∧
      (∀ (errors : List ImportError) (filePath fileContent : List Char),
        errors.filter (fun e => e.filePath == filePath) ≠ [] →
        (∀ s ∈ parseImportStatements fileContent,
          errorsByLine (errors.filter (fun e => e.filePath == filePath)) s.line = []) →
        fixImportsInFile errors filePath fileContent = some fileContent) := by
  constructor
  · intro fileContent s hs
    unfold parseImportStatements at hs
    obtain ⟨j, _, hj2, hj3, hj4, hj5⟩ := parseGo_mem (splitNl fileContent) 0 s hs
    have hsl : s.line - 1 = j := by omega
    refine ⟨by omega, by omega, ?_, ?_⟩
    · rw [hsl]; simpa using hj4
    · rw [hsl]; simpa using hj5
  · intro errors filePath fileContent hne hnomatch
    unfold fixImportsInFile
    have he : (errors.filter (fun e => e.filePath == filePath)).isEmpty = false := by
      cases hh : errors.filter (fun e => e.filePath == filePath) with
      | nil => exact absurd hh hne
      | cons a t => rfl
    rw [if_neg (by simp [he])]
    show some (joinNl ((parseImportStatements fileContent).foldl
        (fixStep (splitNl fileContent) (errors.filter (fun e => e.filePath == filePath)))
        (splitNl fileContent, (0 : Int))).1) = some fileContent
    rw [foldl_fixStep_id _ _ _ _ hnomatch, joinNl_splitNl]

/-- Witness for C10: a diagnostic pointing at line 2 of a three-line import
statement (recorded under line 1) leaves the file byte-for-byte unchanged. -/
theorem parse_records_first_line_only_witness :
    fixImportsInFile
        [{ filePath := ("f.ts").toList, line := 2, column := 3,
            typeName := ("A").toList, errorMessage := [] }] (("f.ts").toList)
        (("import \x7b\n  A,\n\x7d from \x22m\x22;\nconst y = 2;").toList)
      = some (("import \x7b\n  A,\n\x7d from \x22m\x22;\nconst y = 2;").toList) :=
  parse_records_first_line_only.2 _ _ _ (by decide) (by decide)


/-- A splice at an in-bounds nonnegative index decomposes over an append. -/
theorem jsSplice_decomp (P L : List (List Char)) {k : Nat} (hk : k ≤ L.length)
    (d : Nat) (r : List (List Char)) :
    jsSplice (P ++ L) ((P.length + k : Nat) : Int) d r
      = P ++ (L.take k ++ r ++ (L.drop k).drop d) := by
  unfold jsSplice
  rw [if_neg (by omega)]
  have htn : ((P.length + k : Nat) : Int).toNat = P.length + k := by omega
  rw [htn]
  have hmin : min (P.length + k) (P ++ L).length = P.length + k := by
    simp only [List.length_append]
    omega
  rw [hmin]
  show List.take (P.length + k) (P ++ L) ++ r ++ List.drop d (List.drop (P.length + k) (P ++ L))
      = P ++ (L.take k ++ r ++ (L.drop k).drop d)
  rw [List.take_append k, List.drop_append k]
  simp [List.append_assoc]

/-- The offset-threaded splice fold equals simultaneous span replacement in
original coordinates, for sorted disjoint in-bounds spans: the state offset
always equals the length difference accumulated left of the next span, so
each splice replaces exactly its own span. -/
theorem spliceFold_applyEdits : ∀ (E : List (Nat × Nat × List (List Char)))
    (P L : List (List Char)) (c : Nat) (t : Int),
    t = (P.length : Int) - (c : Int) →
    chainEdits c (c + L.length) E →
    (spliceFold (P ++ L, t) E).1 = P ++ applyEditsFrom c L E := by
  intro E
  induction E with
  | nil => intro P L c t _ _; rfl
  | cons e E ih =>
    obtain ⟨a, b, r⟩ := e
    intro P L c t ht hc
    obtain ⟨hca, hab, hbhi, hcrest⟩ := hc
    rw [spliceFold, applyEditsFrom]
    have hk : a - c ≤ L.length := by omega
    have hstart : (a : Int) + t = ((P.length + (a - c) : Nat) : Int) := by
      rw [ht]
      push_cast
      omega
    rw [hstart, jsSplice_decomp P L hk]
    have hdrop : (L.drop (a - c)).drop (b - a + 1) = L.drop (b + 1 - c) := by
      rw [List.drop_drop]
      congr 1
      omega
    rw [hdrop]
    have hassoc : P ++ (L.take (a - c) ++ r ++ L.drop (b + 1 - c))
        = (P ++ L.take (a - c) ++ r) ++ L.drop (b + 1 - c) := by
      simp [List.append_assoc]
    rw [hassoc]
    have hteq : t + (r.length : Int) - ((b - a + 1 : Nat) : Int)
        = ((P ++ L.take (a - c) ++ r).length : Int) - ((b + 1 : Nat) : Int) := by
      rw [ht]
      simp only [List.length_append, List.length_take]
      push_cast
      omega
    have hhi : (b + 1) + (L.drop (b + 1 - c)).length = c + L.length := by
      simp only [List.length_drop]
      omega
    have hchain2 : chainEdits (b + 1) ((b + 1) + (L.drop (b + 1 - c)).length) E := by
      rw [hhi]
      exact hcrest
    rw [ih (P ++ L.take (a - c) ++ r) (L.drop (b + 1 - c)) (b + 1) _ hteq hchain2]
    simp [List.append_assoc]

/-- The fixImportsInFile loop over all parsed statements equals the splice
fold over the edits of its flagged statements. -/
theorem foldl_fixStep_eq_spliceFold (lines : List (List Char))
    (fileErrors : List ImportError) :
    ∀ (stmts : List ImportStmt) (u : List (List Char)) (t : Int),
      stmts.foldl (fixStep lines fileErrors) (u, t)
        = spliceFold (u, t) (stmts.filterMap (toEdit lines fileErrors)) := by
  intro stmts
  induction stmts with
  | nil => intro u t; rfl
  | cons s stmts ih =>
    intro u t
    rw [List.foldl_cons, List.filterMap_cons]
    by_cases hemp : (errorsByLine fileErrors s.line).isEmpty = true
    · have h1 : fixStep lines fileErrors (u, t) s = (u, t) := by
        unfold fixStep
        rw [if_pos hemp]
      have h2 : toEdit lines fileErrors s = none := by
        unfold toEdit
        rw [if_pos hemp]
      rw [h1, h2, ih]
    · have h2 : toEdit lines fileErrors s
          = some (s.line - 1, findEnd lines (s.line - 1),
              splitNl (updateImportStatement s (errorsByLine fileErrors s.line))) := by
        unfold toEdit
        rw [if_neg hemp]
      have h1 : fixStep lines fileErrors (u, t) s
          = (jsSplice u (((s.line - 1 : Nat) : Int) + t)
              (findEnd lines (s.line - 1) - (s.line - 1) + 1)
              (splitNl (updateImportStatement s (errorsByLine fileErrors s.line))),
            t + ((splitNl (updateImportStatement s
                (errorsByLine fileErrors s.line))).length : Int)
              - ((findEnd lines (s.line - 1) - (s.line - 1) + 1 : Nat) : Int)) := by
        unfold fixStep
        rw [if_neg hemp]
      rw [h1, h2, spliceFold, ih]

/-- Claim C4 (amended): in the type-only pass each replacement replaces the
lines from the statement's recorded first line through the first subsequent
line containing a semicolon (the file's last line when none does) — not
through the statement's own parse terminator, as the counterexample shows —
and each subsequent replacement applies the signed running line offset to
the statement's recorded line number; whenever these semicolon-delimited
spans are sorted, disjoint and in bounds, every splice therefore lands on
exactly its own span: the loop's result equals replacing all spans
simultaneously in original line coordinates. -/
theorem fix_imports_splice_lands (errors : List ImportError)
    (filePath fileContent : List Char)
    (hchain : chainEdits 0 (splitNl fileContent).length
      (editsOf errors filePath fileContent))
    (hne : errors.filter (fun e => e.filePath == filePath) ≠ []) :
    fixImportsInFile errors filePath fileContent
      = some (joinNl (applyEditsFrom 0 (splitNl fileContent)
          (editsOf errors filePath fileContent))) := by
  unfold fixImportsInFile
  have he : (errors.filter (fun e => e.filePath == filePath)).isEmpty = false := by
    cases hh : errors.filter (fun e => e.filePath == filePath) with
    | nil => exact absurd hh hne
    | cons a tl => rfl
  rw [if_neg (by simp [he])]
  show some (joinNl ((parseImportStatements fileContent).foldl
      (fixStep (splitNl fileContent) (errors.filter (fun e => e.filePath == filePath)))
      (splitNl fileContent, (0 : Int))).1)
    = some (joinNl (applyEditsFrom 0 (splitNl fileContent)
        (editsOf errors filePath fileContent)))
  rw [foldl_fixStep_eq_spliceFold]
  have hmain := spliceFold_applyEdits (editsOf errors filePath fileContent) []
    (splitNl fileContent) 0 0 (by simp)
    (by simpa using hchain)
  simp only [List.nil_append] at hmain
  rw [show ((parseImportStatements fileContent).filterMap
        (toEdit (splitNl fileContent) (errors.filter (fun e => e.filePath == filePath))))
      = editsOf errors filePath fileContent from rfl]
  rw [hmain]

/-- Claim C4 counterexample: the splice does not replace the statement's
full line span as recorded by the parser.  For `import { A } from "m"` —
terminated by its from-clause, no semicolon — followed by `const x = 1;`,
the endLine scan runs to the next semicolon line, so the replacement
swallows the unrelated second line: it is present in the input and absent
from the written output. -/
theorem fix_imports_span_overruns :
    fixImportsInFile
        [{ filePath := ("f.ts").toList, line := 1, column := 10,
            typeName := ("A").toList, errorMessage := [] }] (("f.ts").toList)
        (("import \x7b A \x7d from \x22m\x22\nconst x = 1;").toList)
      = some (("import type \x7b A \x7d from \x22m\x22;").toList) ∧
      containsSub (("const x = 1;").toList)
        (("import \x7b A \x7d from \x22m\x22\nconst x = 1;").toList) = true ∧
      containsSub (("const x = 1;").toList)
        (("import type \x7b A \x7d from \x22m\x22;").toList) = false :=
  ⟨by decide, by decide, by decide⟩

/-- Witness for the amended C4: two flagged semicolon-terminated imports
with disjoint single-line spans; the offset fold equals the simultaneous
replacement. -/
theorem fix_imports_splice_lands_witness :
    fixImportsInFile
        [{ filePath := ("f.ts").toList, line := 1, column := 10,
            typeName := ("A").toList, errorMessage := [] },
          { filePath := ("f.ts").toList, line := 2, column := 10,
            typeName := ("C").toList, errorMessage := [] }] (("f.ts").toList)
        (("import \x7b A, B \x7d from \x22m\x22;\nimport \x7b C \x7d from \x22n\x22;\nconst x = 1;").toList)
      = some (joinNl (applyEditsFrom 0
          (splitNl (("import \x7b A, B \x7d from \x22m\x22;\nimport \x7b C \x7d from \x22n\x22;\nconst x = 1;").toList))
          (editsOf
            [{ filePath := ("f.ts").toList, line := 1, column := 10,
                typeName := ("A").toList, errorMessage := [] },
              { filePath := ("f.ts").toList, line := 2, column := 10,
                typeName := ("C").toList, errorMessage := [] }] (("f.ts").toList)
            (("import \x7b A, B \x7d from \x22m\x22;\nimport \x7b C \x7d from \x22n\x22;\nconst x = 1;").toList)))) :=
  fix_imports_splice_lands _ _ _ (by decide) (by decide)

end MigrateImports
